import Mathlib

/-!
Verification of the QuizDash client-side quiz-taking session
(`src/Frontend/hooks/useQuizTaker.ts` and the answer-authoring toggle in the
question editor component).

The TypeScript source is shallowly embedded: JavaScript numbers that the UI
produces for option indices and marks are modelled as `Nat` (the question
schema requires `marks ≥ 1` and option indices are non-negative integers),
strings as `String`, the `any`-typed per-question answer as an inductive
`SAnswer`, and the stateful `submitQuiz` callback as a pure function from an
explicit session state to a new state paired with the ordered list of effects
it performs.
-/

namespace QuizDash

/-- The three question types of `QuestionType` in `src/Frontend/types.ts`. -/
inductive QType where
  | singleCorrect
  | multipleCorrect
  | fillInTheBlank
deriving DecidableEq

/-- A student's recorded answer for one question.  In the source the answers
map has type `{ [questionId: string]: any }`; the values actually stored by
`handleAnswerSelect` are a number (single-correct), a string
(fill-in-the-blank) or a number array (multiple-correct). -/
inductive SAnswer where
  | num (n : Nat)
  | str (s : String)
  | arr (l : List Nat)
deriving DecidableEq

/-- `Question` from `src/Frontend/types.ts` (the fields grading reads).
`correctAnswerIndex`, `correctAnswerIndices` and `correctAnswerText` are
optional in the TypeScript interface, hence `Option` here. -/
structure Question where
  id : String
  qtype : QType
  correctAnswerIndex : Option Nat
  correctAnswerIndices : Option (List Nat)
  correctAnswerText : Option String
  marks : Nat
deriving DecidableEq

/-- The answers map `answersRef.current`: question id to recorded answer,
`none` for an unanswered question (JS `undefined`). -/
def AnswersMap : Type := String → Option SAnswer

/-- JS string normalization used by fill-in-the-blank grading:
`s.trim().toLowerCase()`.  (Modelled with Lean's ASCII `trim`/`toLower`;
no claim depends on the exact Unicode behaviour.) -/
def normalizeText (s : String) : String := s.trim.toLower

/-- The per-question correctness switch of `submitQuiz`
(src/Frontend/hooks/useQuizTaker.ts lines 62-78).

* single-correct: `studentAnswer === q.correctAnswerIndex` — strict equality,
  true only for a number equal to the stored index (or for
  `undefined === undefined` when the question has no index, faithful to JS);
* multiple-correct: both sides must be arrays, and
  `studentAnswer.length === correct.length && studentAnswer.every(v => correct.includes(v))`;
* fill-in-the-blank: the answer must be a string and the trimmed lower-cased
  texts must agree (an absent `correctAnswerText` compares unequal). -/
def isCorrectFor (answers : AnswersMap) (q : Question) : Bool :=
  match q.qtype with
  | .singleCorrect =>
      match answers q.id, q.correctAnswerIndex with
      | some (.num n), some c => n == c
      | none, none => true
      | _, _ => false
  | .multipleCorrect =>
      match answers q.id, q.correctAnswerIndices with
      | some (.arr l), some cs =>
          l.length == cs.length && l.all (fun v => cs.contains v)
      | _, _ => false
  | .fillInTheBlank =>
      match answers q.id, q.correctAnswerText with
      | some (.str s), some t => normalizeText s == normalizeText t
      | _, _ => false

/-- Contribution of one question to `achievedMarks`
(`if (isCorrect) achievedMarks += q.marks`). -/
def pointsFor (answers : AnswersMap) (q : Question) : Nat :=
  if isCorrectFor answers q then q.marks else 0

/-- The `achievedMarks` accumulation over `questions.forEach` of `submitQuiz`. -/
def achievedMarks (answers : AnswersMap) (qs : List Question) : Nat :=
  qs.foldl (fun acc q => acc + pointsFor answers q) 0

/-- JavaScript `Math.round` on an exact rational: round half toward
positive infinity, i.e. `⌊x + 1/2⌋`. -/
def jsRound (x : ℚ) : ℤ := ⌊x + 1 / 2⌋

/-- The score computation of `submitQuiz` line 84:
`quiz.totalMarks > 0 ? Math.round((achievedMarks / quiz.totalMarks) * 100) : 0`. -/
def computeScore (achieved totalMarks : Nat) : ℤ :=
  if 0 < totalMarks then jsRound ((achieved : ℚ) / (totalMarks : ℚ) * 100) else 0

/-- Modelled from the spec's words (for comparison with `computeScore`):
"percentage score as `round(achievedPoints / quizTotalPoints * 100)`, defined
as `0` when total points is `0`". -/
def scoreSpec (achieved totalMarks : Nat) : ℤ :=
  if totalMarks = 0 then 0 else jsRound ((achieved : ℚ) / (totalMarks : ℚ) * 100)

theorem achievedMarks_cons (answers : AnswersMap) (q : Question) (qs : List Question) :
    achievedMarks answers (q :: qs) = pointsFor answers q + achievedMarks answers qs := by
  have h : ∀ (l : List Question) (a : Nat),
      l.foldl (fun acc q => acc + pointsFor answers q) a
        = a + l.foldl (fun acc q => acc + pointsFor answers q) 0 := by
    intro l
    induction l with
    | nil => intro a; simp
    | cons x xs ih =>
        intro a
        simp only [List.foldl_cons]
        rw [ih (a + pointsFor answers x), ih (0 + pointsFor answers x)]
        omega
  simp only [achievedMarks, List.foldl_cons, Nat.zero_add]
  exact h qs (pointsFor answers q)

/-- C4: for every achieved-points value and every quiz, the percentage score
computed at submission equals `round(achievedPoints / quizTotalPoints * 100)`
(`scoreSpec`, taken from the spec's words), it equals `0` whenever the quiz's
total points is `0`, and for positive totals it is the total function
`(200·a + t) / (2·t)` on naturals — so it is never `NaN` and never a
division error. -/
theorem score_round_formula (a t : Nat) :
    computeScore a 0 = 0 ∧ computeScore a t = scoreSpec a t ∧
      (0 < t → computeScore a t = ((200 * a + t) / (2 * t) : Nat)) := by
  refine ⟨by simp [computeScore], ?_, ?_⟩
  · rcases Nat.eq_zero_or_pos t with h | h
    · subst h; simp [computeScore, scoreSpec]
    · simp [computeScore, scoreSpec, h, Nat.pos_iff_ne_zero.mp h]
  · intro ht
    have htQ : (t : ℚ) ≠ 0 := Nat.cast_ne_zero.mpr (Nat.pos_iff_ne_zero.mp ht)
    have key : (a : ℚ) / (t : ℚ) * 100 + 1 / 2
        = (((200 * a + t : ℕ) : ℤ) : ℚ) / ((2 * t : ℕ) : ℚ) := by
      push_cast
      field_simp
      ring
    simp only [computeScore, ht, if_pos, jsRound]
    rw [key, Rat.floor_intCast_div_natCast]
    norm_cast

/-- Witness for C4 at `a = 2`, `t = 5` (the spec's own end-to-end example:
`round(2/5*100) = 40`). -/
theorem score_round_formula_witness : 0 < 5 ∧ computeScore 2 5 = 40 := by
  refine ⟨by decide, ?_⟩
  rw [(score_round_formula 2 5).2.2 (by decide)]
  decide

/-- C6: for every single-correct question carrying a correct option index,
grading marks the attempt correct iff the stored answer is exactly that
number; any other stored value (a different number — in particular an
out-of-range index — a string, or an array) is incorrect, and an unanswered
question contributes zero points. -/
theorem grading_single_exact (answers : AnswersMap) (q : Question) (c : Nat)
    (hq : q.qtype = .singleCorrect) (hc : q.correctAnswerIndex = some c) :
    (isCorrectFor answers q = true ↔ answers q.id = some (.num c)) ∧
      (answers q.id = none → pointsFor answers q = 0) := by
  constructor
  · simp only [isCorrectFor, hq, hc]
    cases h : answers q.id with
    | none => simp
    | some a => cases a <;> simp
  · intro h
    simp [pointsFor, isCorrectFor, hq, hc, h]

/-- Witness for C6: a concrete single-correct question, answered with the
correct index `2`, and a concrete unanswered question. -/
theorem grading_single_exact_witness :
    isCorrectFor (fun s => if s = "q1" then some (.num 2) else none)
      ⟨"q1", .singleCorrect, some 2, none, none, 3⟩ = true ∧
    pointsFor (fun _ => none) ⟨"q2", .singleCorrect, some 0, none, none, 3⟩ = 0 := by
  constructor
  · exact (grading_single_exact (fun s => if s = "q1" then some (.num 2) else none)
      ⟨"q1", .singleCorrect, some 2, none, none, 3⟩ 2 rfl rfl).1.mpr (by simp)
  · exact (grading_single_exact (fun _ => none)
      ⟨"q2", .singleCorrect, some 0, none, none, 3⟩ 0 rfl rfl).2 rfl

/-! ### Answer selection for multiple-correct questions

`handleAnswerSelect` (src/Frontend/hooks/useQuizTaker.ts lines 294-306) keeps
the stored list with JavaScript's `Array.prototype.sort()` **without a
comparator**, which per ECMAScript sorts by comparing the decimal string
representations of the numbers.  We model that order on naturals via their
decimal digit lists. -/

/-- Decimal digits of a natural, least significant first; the first argument
is fuel (structurally decreasing) and is instantiated with the number itself,
which always suffices since `n / 10 < n` for `n > 0`. -/
def decDigitsAux : Nat → Nat → List Nat
  | 0, _ => []
  | _ + 1, 0 => []
  | fuel + 1, n + 1 => ((n + 1) % 10) :: decDigitsAux fuel ((n + 1) / 10)

/-- The decimal representation of a natural as a digit list, most significant
first: the JS string `String(n)` that the default sort comparator compares. -/
def decRepr (n : Nat) : List Nat :=
  if n = 0 then [0] else (decDigitsAux n n).reverse

/-- Strict lexicographic order on digit lists: JS string `<` restricted to
decimal digit strings (ASCII digit order agrees with numeric digit order). -/
def lexLt : List Nat → List Nat → Bool
  | _, [] => false
  | [], _ :: _ => true
  | a :: as, b :: bs => decide (a < b) || (a == b && lexLt as bs)

/-- `String(a) < String(b)`: the ECMAScript default sort comparator's strict
order on the numbers the UI stores. -/
def jsLtN (a b : Nat) : Bool := lexLt (decRepr a) (decRepr b)

/-- The non-strict order the default sort arranges ascending:
`a` may precede `b` iff `String(b) < String(a)` fails. -/
def rJS (a b : Nat) : Prop := jsLtN b a = false

instance : DecidableRel rJS := fun _ _ => instDecidableEqBool _ _

theorem lexLt_asymm : ∀ x y : List Nat, lexLt x y = true → lexLt y x = false
  | _, [], h => by simp [lexLt] at h
  | [], _ :: _, _ => by simp [lexLt]
  | a :: as, b :: bs, h => by
      simp only [lexLt, Bool.or_eq_true, decide_eq_true_eq, Bool.and_eq_true,
        beq_iff_eq] at h ⊢
      rcases h with h | ⟨rfl, h⟩
      · simp only [Bool.or_eq_false_iff, Bool.and_eq_false_iff]
        exact ⟨by simp; omega, Or.inl (by simp; omega)⟩
      · simp only [Bool.or_eq_false_iff, Bool.and_eq_false_iff]
        exact ⟨by simp, Or.inr (lexLt_asymm as bs h)⟩

theorem lexLt_trans : ∀ x y z : List Nat,
    lexLt x y = true → lexLt y z = true → lexLt x z = true
  | _, _, [], _, h2 => by simp [lexLt] at h2
  | x, [], _ :: _, h1, _ => by
      cases x <;> simp [lexLt] at h1
  | [], _ :: _, _ :: _, _, _ => by simp [lexLt]
  | a :: as, b :: bs, c :: cs, h1, h2 => by
      simp only [lexLt, Bool.or_eq_true, decide_eq_true_eq, Bool.and_eq_true,
        beq_iff_eq] at h1 h2 ⊢
      rcases h1 with h1 | ⟨rfl, h1⟩
      · rcases h2 with h2 | ⟨rfl, h2⟩
        · exact Or.inl (lt_trans h1 h2)
        · exact Or.inl h1
      · rcases h2 with h2 | ⟨rfl, h2⟩
        · exact Or.inl h2
        · exact Or.inr ⟨rfl, lexLt_trans as bs cs h1 h2⟩

theorem lexLt_connex : ∀ x y : List Nat,
    lexLt x y = false → lexLt y x = false → x = y
  | [], [], _, _ => rfl
  | [], _ :: _, h1, _ => by simp [lexLt] at h1
  | _ :: _, [], _, h2 => by simp [lexLt] at h2
  | a :: as, b :: bs, h1, h2 => by
      simp only [lexLt, Bool.or_eq_false_iff, decide_eq_false_iff_not,
        Bool.and_eq_false_iff, beq_eq_false_iff_ne, ne_eq] at h1 h2
      obtain ⟨hab, h1'⟩ := h1
      obtain ⟨hba, h2'⟩ := h2
      have hab' : a = b := by omega
      subst hab'
      rcases h1' with h | h1'
      · exact absurd rfl h
      · rcases h2' with h | h2'
        · exact absurd rfl h
        · rw [lexLt_connex as bs h1' h2']

instance : IsTotal Nat rJS := by
  constructor
  intro a b
  by_cases h : lexLt (decRepr b) (decRepr a) = true
  · exact Or.inr (lexLt_asymm _ _ h)
  · exact Or.inl (by simpa [rJS, jsLtN] using h)

instance : IsTrans Nat rJS := by
  constructor
  intro a b c hab hbc
  simp only [rJS, jsLtN] at hab hbc ⊢
  by_cases h : lexLt (decRepr c) (decRepr a) = true
  · by_cases h2 : lexLt (decRepr a) (decRepr b) = true
    · exact absurd (lexLt_trans _ _ _ h h2) (by simp [hbc])
    · have h2' : lexLt (decRepr a) (decRepr b) = false := by simpa using h2
      have := lexLt_connex _ _ h2' hab
      rw [← this] at hbc
      exact absurd h (by simp [hbc])
  · simpa using h

/-- JS `[...currentAnswers, value].sort()`: append then default-sort, i.e.
ascending in the string order `rJS`. -/
def jsSort (l : List Nat) : List Nat := List.insertionSort rJS l

/-- The multiple-correct branch of `handleAnswerSelect`: selecting an
already-selected option filters it out (`a !== value`); selecting a new one
appends it and default-sorts the list. -/
def toggleSelect (v : Nat) (l : List Nat) : List Nat :=
  if v ∈ l then l.filter (fun a => a != v) else jsSort (l ++ [v])

/-- The recorded answer lists a multiple-correct question can ever have:
those built from the empty list by answer-selection events. -/
inductive Reach : List Nat → Prop where
  | nil : Reach []
  | step (v : Nat) {l : List Nat} : Reach l → Reach (toggleSelect v l)

theorem toggle_invariant (v : Nat) (l : List Nat)
    (h : l.Sorted rJS ∧ l.Nodup) :
    (toggleSelect v l).Sorted rJS ∧ (toggleSelect v l).Nodup := by
  obtain ⟨hs, hn⟩ := h
  unfold toggleSelect
  by_cases hv : v ∈ l
  · simp only [hv, if_pos]
    exact ⟨List.Pairwise.filter _ hs, hn.filter _⟩
  · simp only [hv, if_neg, not_false_iff]
    have hperm : List.Perm (jsSort (l ++ [v])) (l ++ [v]) :=
      List.perm_insertionSort rJS _
    refine ⟨List.sorted_insertionSort rJS _, hperm.nodup_iff.mpr ?_⟩
    simp [List.nodup_append, hn, hv]

theorem reach_invariant (l : List Nat) (h : Reach l) :
    l.Sorted rJS ∧ l.Nodup := by
  induction h with
  | nil => exact ⟨List.sorted_nil, List.nodup_nil⟩
  | step v _ ih => exact toggle_invariant _ _ ih

theorem decRepr_single (n : Nat) (h : n ≤ 9) : decRepr n = [n] := by
  interval_cases n <;> rfl

theorem rJS_le_of_le_nine (a b : Nat) (ha : a ≤ 9) (hb : b ≤ 9)
    (h : rJS a b) : a ≤ b := by
  simp only [rJS, jsLtN, decRepr_single a ha, decRepr_single b hb, lexLt] at h
  simp only [Bool.or_eq_false_iff, decide_eq_false_iff_not] at h
  omega

/-- C7, as stated, is false: the default JS sort orders by decimal strings,
so selecting option `9` and then option `10` stores `[10, 9]`, which is not
in ascending numeric order. -/
theorem toggle_not_numeric_sorted :
    toggleSelect 10 (toggleSelect 9 []) = [10, 9] ∧
      ¬ (toggleSelect 10 (toggleSelect 9 [])).Sorted (· ≤ · : Nat → Nat → Prop) := by
  constructor
  · rfl
  · intro h
    have h' : ((10 : Nat) :: [9]).Sorted (· ≤ ·) := h
    have h10 : (10 : Nat) ≤ 9 := List.rel_of_sorted_cons h' 9 (by decide)
    omega

/-- C7 amended: after every answer-selection event the stored list is kept
duplicate-free and ascending in the **decimal-string** order `rJS` (the
ECMAScript default sort comparator) — which coincides with ascending numeric
order whenever all stored indices are single-digit; selecting an
already-selected option removes it and selecting a new option adds it. -/
theorem toggle_lex_sorted (v : Nat) (l : List Nat) (hl : Reach l) :
    (v ∈ l → toggleSelect v l = l.filter (fun a => a != v)) ∧
      (v ∉ l → ∀ x, x ∈ toggleSelect v l ↔ x ∈ l ∨ x = v) ∧
      (toggleSelect v l).Sorted rJS ∧
      ((∀ x ∈ toggleSelect v l, x ≤ 9) →
        (toggleSelect v l).Sorted (· ≤ · : Nat → Nat → Prop)) := by
  refine ⟨fun hv => by simp [toggleSelect, hv], fun hv x => ?_, ?_, ?_⟩
  · have hperm : List.Perm (jsSort (l ++ [v])) (l ++ [v]) :=
      List.perm_insertionSort rJS _
    simp only [toggleSelect, hv, if_neg, not_false_iff]
    rw [hperm.mem_iff]
    simp
  · exact (toggle_invariant v l (reach_invariant l hl)).1
  · intro hsmall
    have hs : (toggleSelect v l).Sorted rJS :=
      (toggle_invariant v l (reach_invariant l hl)).1
    exact List.Pairwise.imp_of_mem
      (fun ha hb hr => rJS_le_of_le_nine _ _ (hsmall _ ha) (hsmall _ hb) hr) hs

/-- Witness for C7 amended: from the reachable list `[2]`, selecting `3`
appends it, keeps the list sorted, and all-single-digit lists are numerically
sorted; selecting `2` again removes it. -/
theorem toggle_lex_sorted_witness :
    (3 ∉ (toggleSelect 2 []) → ∀ x, x ∈ toggleSelect 3 (toggleSelect 2 []) ↔
      x ∈ toggleSelect 2 [] ∨ x = 3) ∧
      (toggleSelect 3 (toggleSelect 2 [])).Sorted rJS :=
  ⟨(toggle_lex_sorted 3 (toggleSelect 2 []) (.step 2 .nil)).2.1,
   (toggle_lex_sorted 3 (toggleSelect 2 []) (.step 2 .nil)).2.2.1⟩

/-- C9: every recorded multiple-correct answer list — built from the empty
list by answer-selection toggles — is duplicate-free, and stays so under any
further toggle. -/
theorem reachable_answers_nodup (l : List Nat) (h : Reach l) :
    l.Nodup ∧ ∀ v, (toggleSelect v l).Nodup :=
  ⟨(reach_invariant l h).2,
   fun v => (toggle_invariant v l (reach_invariant l h)).2⟩

/-- Witness for C9 on the concrete reachable list built by selecting `2`
then `3`. -/
theorem reachable_answers_nodup_witness :
    (toggleSelect 3 (toggleSelect 2 [])).Nodup :=
  (reachable_answers_nodup (toggleSelect 3 (toggleSelect 2 []))
    (.step 3 (.step 2 .nil))).1

theorem length_subset_iff_same_mem (ans cs : List Nat)
    (hans : ans.Nodup) (hcs : cs.Nodup) :
    (ans.length = cs.length ∧ ∀ v ∈ ans, v ∈ cs) ↔ (∀ x, x ∈ ans ↔ x ∈ cs) := by
  constructor
  · rintro ⟨hlen, hsub⟩
    have hsp : ans.Subperm cs := List.subperm_of_subset hans fun a h => hsub a h
    have hperm : List.Perm ans cs := hsp.perm_of_length_le (le_of_eq hlen.symm)
    exact fun x => hperm.mem_iff
  · intro hmem
    have hperm : List.Perm ans cs :=
      (List.perm_ext_iff_of_nodup hans hcs).mpr hmem
    exact ⟨hperm.length_eq, fun v hv => (hmem v).mp hv⟩

/-- C3: for a multiple-correct question whose correct-index list is a set
(duplicate-free, as authored by the question editor's checkbox toggle) and a
recorded (toggle-built) student answer list, grading marks it correct iff the
lists have equal length and every selected index is a member of the correct
list; that condition is equivalent to equality of the two index sets, and an
empty student answer against a non-empty correct set is incorrect. -/
theorem grading_multiple_set_equality (answers : AnswersMap) (q : Question)
    (cs ans : List Nat)
    (hq : q.qtype = .multipleCorrect) (hcs : q.correctAnswerIndices = some cs)
    (ha : answers q.id = some (.arr ans))
    (hreach : Reach ans) (hnd : cs.Nodup) :
    (isCorrectFor answers q = true ↔
        ans.length = cs.length ∧ ∀ v ∈ ans, v ∈ cs) ∧
      (isCorrectFor answers q = true ↔ ∀ x, x ∈ ans ↔ x ∈ cs) ∧
      (ans = [] → cs ≠ [] → isCorrectFor answers q = false) := by
  have hbase : isCorrectFor answers q = true ↔
      ans.length = cs.length ∧ ∀ v ∈ ans, v ∈ cs := by
    simp [isCorrectFor, hq, hcs, ha, List.all_eq_true]
  refine ⟨hbase, ?_, ?_⟩
  · rw [hbase]
    exact length_subset_iff_same_mem ans cs (reach_invariant ans hreach).2 hnd
  · rintro rfl hne
    rw [Bool.eq_false_iff]
    intro hc
    have := (hbase.mp hc).1
    simp only [List.length_nil] at this
    exact hne (List.eq_nil_of_length_eq_zero this.symm)

/-- Witness for C3: the spec's own example — recorded answer `[1, 2]` (built
by selecting 1 then 2) against correct set `[2, 1]` is graded correct. -/
theorem grading_multiple_set_equality_witness :
    isCorrectFor
      (fun s => if s = "q1" then some (.arr (toggleSelect 2 (toggleSelect 1 []))) else none)
      ⟨"q1", .multipleCorrect, none, some [2, 1], none, 3⟩ = true :=
  ((grading_multiple_set_equality
      (fun s => if s = "q1" then some (.arr (toggleSelect 2 (toggleSelect 1 []))) else none)
      ⟨"q1", .multipleCorrect, none, some [2, 1], none, 3⟩
      [2, 1] (toggleSelect 2 (toggleSelect 1 []))
      rfl rfl rfl (.step 2 (.step 1 .nil)) (by decide)).1).mpr (by decide)

/-! ### The Submit protocol

`submitQuiz` (src/Frontend/hooks/useQuizTaker.ts lines 51-111) is embedded as
a pure transition on an explicit session state, returning the ordered list of
effects the invocation performs.  The single `await` of the function is the
remote persistence call; everything before it (the guard, the best-effort
full-screen exit request, setting the finished refs, grading) runs
synchronously, so sequential composition models two back-to-back
invocations faithfully.  The outcome of the remote call is the `remoteOk`
oracle argument. -/

/-- The fields of `QuizAttempt` that the submit protocol reads or writes. -/
structure Attempt where
  id : Option String
  quizId : String
  studentId : String
  answers : AnswersMap
  score : ℤ
  achievedMarksField : Nat
  startTime : Nat
  endTime : Option Nat
  tabSwitches : Nat
  submitted : Bool

/-- The quiz fields the session controller reads. -/
structure Quiz where
  id : String
  durationMinutes : Nat
  tabSwitchThreshold : Nat
  totalMarks : Nat

/-- One observable effect of a `submitQuiz` invocation, in program order:
the fire-and-forget `document.exitFullscreen()` request, the synchronous
`isFinishedRef.current = true; setIsFinished(true)`, the remote
`apiUpdateAttempt` / `apiSaveAttempt` call, clearing the `quiz_progress_*`
local-storage entry, writing the `quiz_backup_*` local-storage entry, the
failure `alert`, and scheduling the `onFinish` completion callback. -/
inductive Effect where
  | exitFullscreen
  | markFinished
  | remoteUpdate
  | remoteSave
  | clearProgress
  | writeBackup
  | alertUser
  | scheduleOnFinish
deriving DecidableEq

/-- The mutable state `submitQuiz` interacts with: the in-flight attempt ref,
the finished ref, `document.fullscreenElement` (as a flag), the answers ref,
the captured `tabSwitches` and `questions`, the two local-storage slots, and
the clock value `Date.now()` used for `endTime`. -/
structure SessionState where
  attemptRef : Option Attempt
  isFinishedRef : Bool
  fullscreenActive : Bool
  answersRef : AnswersMap
  tabSwitches : Nat
  questions : List Question
  progressCacheHasEntry : Bool
  backupSlot : Option Attempt
  now : Nat

/-- The `finalAttempt` record built by `submitQuiz` lines 86-94. -/
def finalAttemptOf (quiz : Quiz) (s : SessionState) (att : Attempt) : Attempt :=
  let marks := achievedMarks s.answersRef s.questions
  { att with
      answers := s.answersRef
      score := computeScore marks quiz.totalMarks
      achievedMarksField := marks
      endTime := some s.now
      tabSwitches := s.tabSwitches
      submitted := true }

/-- The embedded `submitQuiz`: guard, best-effort full-screen exit, mark
finished, grade, persist (update when the attempt has a remote id, create
otherwise); on success clear the progress cache, on failure write the local
backup slot and alert; finally schedule the completion callback. -/
def submitQuiz (quiz : Quiz) (remoteOk : Bool) (s : SessionState) :
    SessionState × List Effect :=
  match s.attemptRef with
  | none => (s, [])
  | some att =>
      if s.isFinishedRef then (s, [])
      else
        let fsEff := if s.fullscreenActive then [Effect.exitFullscreen] else []
        let s1 := { s with isFinishedRef := true }
        let final := finalAttemptOf quiz s att
        let persistEff :=
          if att.id.isSome then Effect.remoteUpdate else Effect.remoteSave
        if remoteOk then
          ({ s1 with progressCacheHasEntry := false },
            fsEff ++ [Effect.markFinished, persistEff, Effect.clearProgress,
              Effect.scheduleOnFinish])
        else
          ({ s1 with backupSlot := some final },
            fsEff ++ [Effect.markFinished, persistEff, Effect.writeBackup,
              Effect.alertUser, Effect.scheduleOnFinish])

/-- Whether an effect is a remote create-or-update call. -/
def isRemoteCall : Effect → Bool
  | .remoteUpdate => true
  | .remoteSave => true
  | _ => false

/-- Number of remote create-or-update calls in an effect trace. -/
def countRemote (t : List Effect) : Nat := (t.filter isRemoteCall).length

/-- Number of completion-callback invocations scheduled in an effect trace. -/
def countCallbacks (t : List Effect) : Nat :=
  (t.filter (fun e => decide (e = Effect.scheduleOnFinish))).length

theorem submit_noop (quiz : Quiz) (ok : Bool) (s : SessionState)
    (h : s.attemptRef = none ∨ s.isFinishedRef = true) :
    submitQuiz quiz ok s = (s, []) := by
  rcases h with h | h
  · simp [submitQuiz, h]
  · cases hatt : s.attemptRef <;> simp [submitQuiz, hatt, h]

theorem submit_passes (quiz : Quiz) (ok : Bool) (s : SessionState) (att : Attempt)
    (hatt : s.attemptRef = some att) (hfin : s.isFinishedRef = false) :
    (submitQuiz quiz ok s).1.isFinishedRef = true ∧
      (submitQuiz quiz ok s).1.attemptRef = some att ∧
      countRemote (submitQuiz quiz ok s).2 = 1 ∧
      countCallbacks (submitQuiz quiz ok s).2 = 1 := by
  cases ok <;> cases hfs : s.fullscreenActive <;> rcases hid : att.id with _ | i <;>
    simp [submitQuiz, hatt, hfin, hfs, hid, countRemote, countCallbacks, isRemoteCall]

/-- C1: the idempotency guard — with no in-flight attempt reference or with
the session already finished, `submitQuiz` is a no-op with no effects; and
when the guard passes, two invocations in immediate succession (the first
marks the finished ref synchronously, so the second is the no-op) perform
exactly one remote create-or-update call and schedule exactly one completion
callback, whatever the two persistence outcomes. -/
theorem submit_idempotent (quiz : Quiz) (ok1 ok2 : Bool) (s : SessionState)
    (att : Attempt) :
    (s.attemptRef = none ∨ s.isFinishedRef = true →
        submitQuiz quiz ok1 s = (s, [])) ∧
      (s.attemptRef = some att → s.isFinishedRef = false →
        countRemote ((submitQuiz quiz ok1 s).2
            ++ (submitQuiz quiz ok2 (submitQuiz quiz ok1 s).1).2) = 1 ∧
          countCallbacks ((submitQuiz quiz ok1 s).2
            ++ (submitQuiz quiz ok2 (submitQuiz quiz ok1 s).1).2) = 1) := by
  refine ⟨submit_noop quiz ok1 s, fun hatt hfin => ?_⟩
  obtain ⟨hfin1, _, hrem1, hcb1⟩ := submit_passes quiz ok1 s att hatt hfin
  have hnoop : submitQuiz quiz ok2 (submitQuiz quiz ok1 s).1
      = ((submitQuiz quiz ok1 s).1, []) :=
    submit_noop quiz ok2 _ (Or.inr hfin1)
  rw [hnoop]
  simp only [countRemote, countCallbacks, List.filter_append, List.length_append,
    List.filter_nil, List.length_nil, Nat.add_zero]
  exact ⟨hrem1, hcb1⟩

/-- C2 amended: in every guard-passing invocation, marking the session
Finished happens synchronously before the remote persistence call and before
every other effect except the fire-and-forget full-screen exit request,
which the code issues first (and which is the only effect that can precede
it, and is not a remote call). -/
theorem submit_mark_finished_before_persist (quiz : Quiz) (ok : Bool)
    (s : SessionState) (att : Attempt)
    (hatt : s.attemptRef = some att) (hfin : s.isFinishedRef = false) :
    ∃ rest : List Effect,
      (submitQuiz quiz ok s).2
          = (if s.fullscreenActive then [Effect.exitFullscreen] else [])
            ++ Effect.markFinished :: rest ∧
        ∀ e ∈ (if s.fullscreenActive then [Effect.exitFullscreen] else []),
          e = Effect.exitFullscreen ∧ isRemoteCall e = false := by
  cases ok <;> cases hfs : s.fullscreenActive <;>
    [exact ⟨[if att.id.isSome then Effect.remoteUpdate else Effect.remoteSave,
        Effect.writeBackup, Effect.alertUser, Effect.scheduleOnFinish],
      by simp [submitQuiz, hatt, hfin, hfs], by simp [hfs]⟩;
     exact ⟨[if att.id.isSome then Effect.remoteUpdate else Effect.remoteSave,
        Effect.writeBackup, Effect.alertUser, Effect.scheduleOnFinish],
      by simp [submitQuiz, hatt, hfin, hfs], by simp [hfs, isRemoteCall]⟩;
     exact ⟨[if att.id.isSome then Effect.remoteUpdate else Effect.remoteSave,
        Effect.clearProgress, Effect.scheduleOnFinish],
      by simp [submitQuiz, hatt, hfin, hfs], by simp [hfs]⟩;
     exact ⟨[if att.id.isSome then Effect.remoteUpdate else Effect.remoteSave,
        Effect.clearProgress, Effect.scheduleOnFinish],
      by simp [submitQuiz, hatt, hfin, hfs], by simp [hfs, isRemoteCall]⟩]

theorem submit_persistence_outcomes (quiz : Quiz) (s : SessionState)
    (att : Attempt)
    (hatt : s.attemptRef = some att) (hfin : s.isFinishedRef = false) :
    ((submitQuiz quiz false s).1.backupSlot = some (finalAttemptOf quiz s att) ∧
        Effect.writeBackup ∈ (submitQuiz quiz false s).2 ∧
        (submitQuiz quiz false s).1.progressCacheHasEntry
          = s.progressCacheHasEntry) ∧
      ((submitQuiz quiz true s).1.progressCacheHasEntry = false ∧
        (submitQuiz quiz true s).1.backupSlot = s.backupSlot ∧
        Effect.clearProgress ∈ (submitQuiz quiz true s).2) := by
  cases hfs : s.fullscreenActive <;> simp [submitQuiz, hatt, hfin, hfs]

/-- A concrete answers map with no recorded answers. -/
def emptyAnswers : AnswersMap := fun _ => none

/-- A concrete in-flight attempt for witnesses and counterexamples. -/
def attW : Attempt :=
  { id := some "a1", quizId := "quiz1", studentId := "stu1",
    answers := emptyAnswers, score := 0, achievedMarksField := 0,
    startTime := 0, endTime := none, tabSwitches := 0, submitted := false }

/-- A concrete quiz for witnesses and counterexamples. -/
def quizW : Quiz :=
  { id := "quiz1", durationMinutes := 10, tabSwitchThreshold := 3,
    totalMarks := 5 }

/-- A concrete running session: in-flight attempt, not finished, full-screen
active, progress cache entry present. -/
def sW : SessionState :=
  { attemptRef := some attW, isFinishedRef := false, fullscreenActive := true,
    answersRef := emptyAnswers, tabSwitches := 0, questions := [],
    progressCacheHasEntry := true, backupSlot := none, now := 1000 }

/-- Witness for C1: on the concrete running session, a double submit performs
one remote call and schedules one completion callback. -/
theorem submit_idempotent_witness :
    countRemote ((submitQuiz quizW true sW).2
        ++ (submitQuiz quizW true (submitQuiz quizW true sW).1).2) = 1 ∧
      countCallbacks ((submitQuiz quizW true sW).2
        ++ (submitQuiz quizW true (submitQuiz quizW true sW).1).2) = 1 :=
  (submit_idempotent quizW true true sW attW).2 rfl rfl

/-- C2, as stated, is false: on a session with full-screen mode active, the
first effect of a guard-passing submit invocation is the best-effort
full-screen exit request, not the marking of the session as Finished. -/
theorem submit_mark_finished_not_first :
    (submitQuiz quizW true sW).2.head? = some Effect.exitFullscreen ∧
      (submitQuiz quizW true sW).2.head? ≠ some Effect.markFinished := by
  constructor
  · rfl
  · intro h
    simp only [submitQuiz, sW, attW] at h
    cases h

/-- Witness for C2 amended, on the concrete running session. -/
theorem submit_mark_finished_before_persist_witness :
    ∃ rest : List Effect,
      (submitQuiz quizW true sW).2
          = (if sW.fullscreenActive then [Effect.exitFullscreen] else [])
            ++ Effect.markFinished :: rest ∧
        ∀ e ∈ (if sW.fullscreenActive then [Effect.exitFullscreen] else []),
          e = Effect.exitFullscreen ∧ isRemoteCall e = false :=
  submit_mark_finished_before_persist quizW true sW attW rfl rfl

/-- C5, as stated, is false in its degraded-fallback half: when the remote
persistence call fails, the backup slot is written but the in-progress
progress-cache entry is **not** cleared (the `removeItem` sits inside the
`try` block, after the `await`). -/
theorem submit_failure_cache_not_cleared :
    Effect.writeBackup ∈ (submitQuiz quizW false sW).2 ∧
      ¬ ((submitQuiz quizW false sW).1.progressCacheHasEntry = false) := by
  constructor
  · decide
  · intro h
    rw [show (submitQuiz quizW false sW).1.progressCacheHasEntry = true from rfl] at h
    cases h

/-- C5 amended: on persistence failure the final attempt record is written to
the separate backup slot (and the user alerted), but the in-progress cache
entry is cleared only in the success case, where the backup slot is left
untouched. -/
theorem submit_failure_backup (quiz : Quiz) (s : SessionState) (att : Attempt)
    (hatt : s.attemptRef = some att) (hfin : s.isFinishedRef = false) :
    ((submitQuiz quiz false s).1.backupSlot = some (finalAttemptOf quiz s att) ∧
        Effect.writeBackup ∈ (submitQuiz quiz false s).2 ∧
        (submitQuiz quiz false s).1.progressCacheHasEntry
          = s.progressCacheHasEntry) ∧
      ((submitQuiz quiz true s).1.progressCacheHasEntry = false ∧
        (submitQuiz quiz true s).1.backupSlot = s.backupSlot) :=
  ⟨(submit_persistence_outcomes quiz s att hatt hfin).1,
   (submit_persistence_outcomes quiz s att hatt hfin).2.1,
   (submit_persistence_outcomes quiz s att hatt hfin).2.2.1⟩

/-- Witness for C5 amended, on the concrete running session. -/
theorem submit_failure_backup_witness :
    (submitQuiz quizW false sW).1.backupSlot
        = some (finalAttemptOf quizW sW attW) ∧
      (submitQuiz quizW true sW).1.progressCacheHasEntry = false :=
  ⟨(submit_failure_backup quizW sW attW rfl rfl).1.1,
   (submit_failure_backup quizW sW attW rfl rfl).2.1⟩

/-! ### The countdown timer

The timer effect (src/Frontend/hooks/useQuizTaker.ts lines 180-195) updates
`timeLeft` every second via
`prev <= 1 ? (clearInterval(timer); submitQuiz(); 0) : prev - 1`.
The `Bool` component records whether the tick took the stop branch
(clear the interval and invoke submit). -/

/-- One timer tick: the updater function passed to `setTimeLeft`. -/
def timerTick (t : Int) : Int × Bool :=
  if t ≤ 1 then (0, true) else (t - 1, false)

/-- Run `n` ticks from remaining time `t`, stopping when a tick takes the
stop branch (the interval is cleared, so no further ticks fire). -/
def timerRun : Nat → Int → Int
  | 0, t => t
  | n + 1, t =>
      if (timerTick t).2 then (timerTick t).1 else timerRun n (timerTick t).1

theorem timerRun_nonneg : ∀ (n : Nat) (t : Int), 0 ≤ t → 0 ≤ timerRun n t
  | 0, _, h => h
  | n + 1, t, h => by
      by_cases h1 : t ≤ 1
      · simp [timerRun, timerTick, h1]
      · simp only [timerRun, timerTick, if_neg h1]
        exact timerRun_nonneg n (t - 1) (by omega)

/-- C10: a timer tick on a value greater than 1 decrements it by exactly one
without stopping; on a value at most 1 it sets the remaining time to 0,
clears the interval and invokes submit (the stop branch); hence from any
non-negative starting duration the remaining seconds stay non-negative for
arbitrarily many ticks. -/
theorem timer_nonneg (t : Int) (h : 0 ≤ t) :
    (1 < t → timerTick t = (t - 1, false)) ∧
      (t ≤ 1 → timerTick t = (0, true)) ∧
      ∀ n : Nat, 0 ≤ timerRun n t := by
  refine ⟨fun h1 => ?_, fun h1 => ?_, fun n => timerRun_nonneg n t h⟩
  · simp [timerTick, show ¬ t ≤ 1 by omega]
  · simp [timerTick, h1]

/-- Witness for C10 at a 3-second remaining time. -/
theorem timer_nonneg_witness :
    timerTick 3 = (2, false) ∧ 0 ≤ timerRun 5 3 :=
  ⟨(timer_nonneg 3 (by decide)).1 (by decide),
   (timer_nonneg 3 (by decide)).2.2 5⟩

/-! ### The shuffle utility

`shuffleArray` (src/Frontend/hooks/useQuizTaker.ts lines 10-17) copies the
input and runs the Fisher-Yates loop
`for (i = n-1; i > 0; i--) { j = floor(random()*(i+1)); swap(a[i], a[j]) }`.
Randomness is modelled as an oracle of per-index choices `j ∈ [0, i]`
(`Math.floor(Math.random() * (i + 1))` with ideal uniform `random()`); the
function itself is pure and operates on a copy, never mutating its input.
The model processes the loop iterations recursively: the first iteration
swaps the last position with the chosen one, fixing the last element; the
remaining iterations act on the prefix.  (The model also runs the vacuous
`i = 0` iteration, whose only possible choice `j = 0` swaps a position with
itself.) -/

/-- The choice oracle: one uniform pick in `[0, i]` per loop index `i`. -/
abbrev Choices (n : Nat) : Type := (i : Fin n) → Fin (i.1 + 1)

/-- The Fisher-Yates loop as an action on position-indexed tuples. -/
def fyFun : {n : Nat} → (Fin n → α) → Choices n → Fin n → α
  | 0, a, _ => a
  | n + 1, a, c =>
      let a' := a ∘ Equiv.swap (Fin.last n) (c (Fin.last n))
      Fin.lastCases (a' (Fin.last n))
        (fyFun (fun i : Fin n => a' i.castSucc) (fun i : Fin n => c i.castSucc))

/-- The shuffle utility on lists: `shuffleArray(l)` with choice oracle `c`. -/
def shuffleArray (l : List α) (c : Choices l.length) : List α :=
  List.ofFn (fyFun l.get c)

theorem fyFun_perm : ∀ {n : Nat} (a : Fin n → α) (c : Choices n),
    List.Perm (List.ofFn (fyFun a c)) (List.ofFn a)
  | 0, a, c => by simp [fyFun]
  | n + 1, a, c => by
      rw [List.ofFn_succ' (fyFun a c)]
      simp only [fyFun, Fin.lastCases_last, Fin.lastCases_castSucc]
      have ih := fyFun_perm
        (fun i : Fin n => (a ∘ Equiv.swap (Fin.last n) (c (Fin.last n))) i.castSucc)
        (fun i : Fin n => c i.castSucc)
      have step1 : List.Perm
          ((List.ofFn (fyFun
            (fun i : Fin n => (a ∘ Equiv.swap (Fin.last n) (c (Fin.last n))) i.castSucc)
            (fun i : Fin n => c i.castSucc))).concat
              ((a ∘ Equiv.swap (Fin.last n) (c (Fin.last n))) (Fin.last n)))
          ((List.ofFn
            (fun i : Fin n => (a ∘ Equiv.swap (Fin.last n) (c (Fin.last n))) i.castSucc)).concat
              ((a ∘ Equiv.swap (Fin.last n) (c (Fin.last n))) (Fin.last n))) := by
        simp only [List.concat_eq_append]
        exact ih.append_right _
      refine step1.trans ?_
      rw [← List.ofFn_succ' (a ∘ Equiv.swap (Fin.last n) (c (Fin.last n)))]
      exact Equiv.Perm.ofFn_comp_perm _ a

theorem fyFun_injective : ∀ {n : Nat} (a : Fin n → α), Function.Injective a →
    ∀ c d : Choices n, fyFun a c = fyFun a d → c = d
  | 0, _, _, _, _, _ => funext fun i => i.elim0
  | n + 1, a, ha, c, d, h => by
      have hlast : c (Fin.last n) = d (Fin.last n) := by
        have h0 := congrFun h (Fin.last n)
        simp only [fyFun, Fin.lastCases_last, Function.comp_apply,
          Equiv.swap_apply_left] at h0
        exact ha h0
      have hrest : fyFun
          (fun i : Fin n =>
            (a ∘ Equiv.swap (Fin.last n) (c (Fin.last n))) i.castSucc)
          (fun i : Fin n => c i.castSucc)
          = fyFun
          (fun i : Fin n =>
            (a ∘ Equiv.swap (Fin.last n) (c (Fin.last n))) i.castSucc)
          (fun i : Fin n => d i.castSucc) := by
        funext i
        have hi := congrFun h i.castSucc
        simp only [fyFun, Fin.lastCases_castSucc] at hi
        rw [← hlast] at hi
        exact hi
      have hinj : Function.Injective
          (fun i : Fin n =>
            (a ∘ Equiv.swap (Fin.last n) (c (Fin.last n))) i.castSucc) :=
        fun x y hxy =>
          Fin.castSucc_injective n ((Equiv.injective _) (ha hxy))
      have hc' := fyFun_injective _ hinj
        (fun i : Fin n => c i.castSucc) (fun i : Fin n => d i.castSucc) hrest
      funext i
      refine Fin.lastCases ?_ (fun j => ?_) i
      · exact hlast
      · exact congrFun hc' j

theorem fyFun_exists : ∀ {n : Nat} (a : Fin n → α) (σ : Equiv.Perm (Fin n)),
    ∃ c : Choices n, fyFun a c = a ∘ σ
  | 0, a, _ => ⟨fun i => i.elim0, funext fun i => i.elim0⟩
  | n + 1, a, σ => by
      have htau : ∀ i : Fin n,
          Equiv.swap (Fin.last n) (σ (Fin.last n)) (σ i.castSucc)
            ≠ Fin.last n := by
        intro i
        have hne : i.castSucc ≠ Fin.last n := (Fin.castSucc_lt_last i).ne
        by_cases hσ : σ i.castSucc = Fin.last n
        · rw [hσ, Equiv.swap_apply_left]
          intro hcl
          exact hne (σ.injective (hσ.trans hcl.symm))
        · have hσ2 : σ i.castSucc ≠ σ (Fin.last n) :=
            fun hEq => hne (σ.injective hEq)
          rw [Equiv.swap_apply_of_ne_of_ne hσ hσ2]
          exact hσ
      have hρcast : ∀ i : Fin n,
          ((Equiv.swap (Fin.last n) (σ (Fin.last n)) (σ i.castSucc)).castPred
              (htau i)).castSucc
            = Equiv.swap (Fin.last n) (σ (Fin.last n)) (σ i.castSucc) :=
        fun i => Fin.castSucc_castPred _ _
      have hρinj : Function.Injective
          (fun i : Fin n =>
            (Equiv.swap (Fin.last n) (σ (Fin.last n)) (σ i.castSucc)).castPred
              (htau i)) := by
        intro x y hxy
        have hx : Equiv.swap (Fin.last n) (σ (Fin.last n)) (σ x.castSucc)
            = Equiv.swap (Fin.last n) (σ (Fin.last n)) (σ y.castSucc) := by
          rw [← hρcast x, ← hρcast y]
          exact congrArg Fin.castSucc hxy
        exact Fin.castSucc_injective n (σ.injective ((Equiv.injective _) hx))
      obtain ⟨c', hc'⟩ := fyFun_exists
        (fun i : Fin n =>
          (a ∘ Equiv.swap (Fin.last n) (σ (Fin.last n))) i.castSucc)
        (Equiv.ofBijective _ (Finite.injective_iff_bijective.mp hρinj))
      refine ⟨fun i => Fin.lastCases (motive := fun i : Fin (n + 1) => Fin (i.1 + 1))
        (σ (Fin.last n)) (fun j => c' j) i, ?_⟩
      funext k
      refine Fin.lastCases ?_ (fun j => ?_) k
      · simp only [fyFun, Fin.lastCases_last, Function.comp_apply,
          Equiv.swap_apply_left]
      · simp only [fyFun, Fin.lastCases_last, Fin.lastCases_castSucc,
          Function.comp_apply]
        have hgoal := congrFun hc' j
        simp only [Function.comp_apply, Equiv.ofBijective_apply] at hgoal
        rw [hgoal, hρcast j, Equiv.swap_apply_self]

theorem perm_exists_equiv (l l' : List α) (hl' : l'.Nodup)
    (h : List.Perm l' l) :
    ∃ σ : Equiv.Perm (Fin l.length), l' = List.ofFn (fun k => l.get (σ k)) := by
  classical
  have hlen : l'.length = l.length := h.length_eq
  have hmem : ∀ i : Fin l.length, l'.get (Fin.cast hlen.symm i) ∈ l :=
    fun i => h.subset (List.get_mem _ _ _)
  have hfget : ∀ i : Fin l.length,
      l.get ⟨List.indexOf (l'.get (Fin.cast hlen.symm i)) l,
        List.indexOf_lt_length.mpr (hmem i)⟩ = l'.get (Fin.cast hlen.symm i) :=
    fun i => List.indexOf_get _
  have hfinj : Function.Injective (fun i : Fin l.length =>
      (⟨List.indexOf (l'.get (Fin.cast hlen.symm i)) l,
        List.indexOf_lt_length.mpr (hmem i)⟩ : Fin l.length)) := by
    intro x y hxy
    have hget : l'.get (Fin.cast hlen.symm x) = l'.get (Fin.cast hlen.symm y) := by
      rw [← hfget x, ← hfget y]
      exact congrArg l.get hxy
    have hc := List.nodup_iff_injective_get.mp hl' hget
    have hv : (Fin.cast hlen.symm x).val = (Fin.cast hlen.symm y).val :=
      congrArg Fin.val hc
    exact Fin.ext hv
  refine ⟨Equiv.ofBijective _ (Finite.injective_iff_bijective.mp hfinj), ?_⟩
  apply List.ext_get (by simp [hlen])
  intro i h1 h2
  rw [List.get_ofFn]
  simp only [Equiv.ofBijective_apply]
  rw [hfget]
  congr 1

/-- Number of possible choice oracles: `∏ (i+1) = n!`. -/
theorem card_choices (n : Nat) :
    Fintype.card (Choices n) = n.factorial := by
  rw [Fintype.card_pi]
  simp only [Fintype.card_fin]
  rw [Fin.prod_univ_eq_prod_range (fun i => i + 1) n]
  exact Finset.prod_range_add_one_eq_factorial n

/-- C8: for every input list and every choice oracle, the shuffle returns a
permutation of its input (the same `n` elements); for a duplicate-free input
of length `n`, every ordering of those elements is produced by exactly one of
the `n!` equally likely choice oracles — i.e. the `n!` orderings are equally
likely — and the number of choice oracles is exactly `n!`.  The embedding is
a pure function on an explicit copy, so the input is never mutated. -/
theorem shuffle_uniform_perm (l : List α) (c : Choices l.length) :
    List.Perm (shuffleArray l c) l ∧
      (l.Nodup → ∀ l' : List α, List.Perm l' l →
        ∃! d : Choices l.length, shuffleArray l d = l') ∧
      Fintype.card (Choices l.length) = l.length.factorial := by
  refine ⟨?_, ?_, card_choices l.length⟩
  · have := fyFun_perm l.get c
    rw [List.ofFn_get] at this
    exact this
  · intro hnd l' hperm
    have hinj : Function.Injective l.get := List.nodup_iff_injective_get.mp hnd
    obtain ⟨σ, hσ⟩ := perm_exists_equiv l l' (hperm.symm.nodup hnd) hperm
    obtain ⟨d, hd⟩ := fyFun_exists l.get σ
    have hdl : shuffleArray l d = l' := by
      unfold shuffleArray
      rw [hd]
      exact hσ.symm
    refine ⟨d, hdl, fun d₂ hd₂ => ?_⟩
    exact fyFun_injective l.get hinj d₂ d
      (List.ofFn_injective (hd₂.trans hdl.symm))

/-- Witness for C8: shuffling the two-element list `[10, 20]`; the ordering
`[20, 10]` is produced by exactly one choice oracle. -/
theorem shuffle_uniform_perm_witness :
    List.Perm (shuffleArray [10, 20] (fun _ => ⟨0, Nat.succ_pos _⟩)) [10, 20] ∧
      ∃! d : Choices 2, shuffleArray [10, 20] d = [20, 10] :=
  ⟨(shuffle_uniform_perm [10, 20] (fun _ => ⟨0, Nat.succ_pos _⟩)).1,
   (shuffle_uniform_perm [10, 20] (fun _ => ⟨0, Nat.succ_pos _⟩)).2.1
     (by decide) [20, 10] (by decide)⟩

end QuizDash
